import Mathlib

/-!
Verification development for the 3x3x3 cube engine in src/main.js.

The discrete turn/state/history/closeness core of the source is embedded
shallowly: positions are rational 3-vectors, orientations rational 3x3
matrices (the quaternion in the source is an equivalent representation of
the same rotation), machine floats become exact rationals, and the
animation of a turn is collapsed to its completed state transition, which
is the only state observable at rest.
-/

set_option maxHeartbeats 2000000

/-- Rational 3-vector, the model of a THREE.Vector3 value. -/
structure V3 where
  x : ℚ
  y : ℚ
  z : ℚ
deriving DecidableEq

/-- Rational 3x3 matrix given by rows; models an orientation or rotation
(the source stores a quaternion, an equivalent encoding of the rotation). -/
structure M3 where
  r1 : V3
  r2 : V3
  r3 : V3
deriving DecidableEq

def dotV (a b : V3) : ℚ := a.x * b.x + a.y * b.y + a.z * b.z

def mulVec (A : M3) (v : V3) : V3 := ⟨dotV A.r1 v, dotV A.r2 v, dotV A.r3 v⟩

def colX (B : M3) : V3 := ⟨B.r1.x, B.r2.x, B.r3.x⟩

def colY (B : M3) : V3 := ⟨B.r1.y, B.r2.y, B.r3.y⟩

def colZ (B : M3) : V3 := ⟨B.r1.z, B.r2.z, B.r3.z⟩

def rowMul (r : V3) (B : M3) : V3 := ⟨dotV r (colX B), dotV r (colY B), dotV r (colZ B)⟩

def matMul (A B : M3) : M3 := ⟨rowMul A.r1 B, rowMul A.r2 B, rowMul A.r3 B⟩

def idM : M3 := ⟨⟨1, 0, 0⟩, ⟨0, 1, 0⟩, ⟨0, 0, 1⟩⟩

def matPow (A : M3) : ℕ → M3
  | 0 => idM
  | n + 1 => matMul (matPow A n) A

/-- World coordinate axis, the axis field of a Move in main.js. -/
inductive Axis | x | y | z
deriving DecidableEq

def coordA : Axis → V3 → ℚ
  | Axis.x, v => v.x
  | Axis.y, v => v.y
  | Axis.z, v => v.z

/-- Quarter counter-clockwise rotation matrix about the positive axis.
THREE.Quaternion.setFromAxisAngle with the unit axis vector and angle
pi/2 acts on vectors exactly as this matrix. -/
def rotQ : Axis → M3
  | Axis.x => ⟨⟨1, 0, 0⟩, ⟨0, 0, -1⟩, ⟨0, 1, 0⟩⟩
  | Axis.y => ⟨⟨0, 0, 1⟩, ⟨0, 1, 0⟩, ⟨-1, 0, 0⟩⟩
  | Axis.z => ⟨⟨0, -1, 0⟩, ⟨1, 0, 0⟩, ⟨0, 0, 1⟩⟩

/-- The Move record of main.js line 534: thinsp axis, sign, cw, quarters.
The source keeps sign and quarters as plain JS numbers; integer values are
the only ones produced anywhere. -/
structure Move where
  axis : Axis
  sign : ℤ
  cw : Bool
  quarters : ℤ
deriving DecidableEq

/-- Number of counter-clockwise quarter turns about the positive axis that
animateTurn (main.js 609-624) performs: targetAngle is
(cw ? -1 : 1) * (pi/2) * max 1 quarters about the axis vector sign * e,
and a rotation about sign * e by an angle equals the rotation about e by
sign times that angle. Reduced mod 4 since four quarters are the identity. -/
def quarterExp (m : Move) : ℕ :=
  ((m.sign * (if m.cw then -1 else 1) * max 1 m.quarters) % 4).toNat

/-- Net rotation matrix of a Move. -/
def rotOf (m : Move) : M3 := matPow (rotQ m.axis) (quarterExp m)

/-- Inverse move built by the solve handler (main.js 828): same axis, sign
and quarters, clockwise flag negated. -/
def invMove (m : Move) : Move := ⟨m.axis, m.sign, !m.cw, m.quarters⟩

/-- JS Math.round: floor of the value plus one half (halves go toward
positive infinity), the exact semantics used by snapToGrid and
roundedIndex in main.js. -/
def jsRound (q : ℚ) : ℤ := ⌊q + 1/2⌋

/-- snapToGrid (main.js 594-601): Math.round applied to each position
component. Nothing else of the object is touched; in particular the
orientation quaternion is left exactly as the turn produced it. -/
def roundV (v : V3) : V3 :=
  ⟨(jsRound v.x : ℚ), (jsRound v.y : ℚ), (jsRound v.z : ℚ)⟩

/-- roundedIndex (main.js 407-413): Math.round, then clamp results below
-1 up to -1 and results above 1 down to 1. -/
def roundedIndex (q : ℚ) : ℤ :=
  if jsRound q < -1 then -1 else if jsRound q > 1 then 1 else jsRound q

/-- A coordinate value of the integer lattice -1, 0, 1. -/
def inLat (q : ℚ) : Prop := q = -1 ∨ q = 0 ∨ q = 1

/-- A lattice point of the 3x3x3 cube grid. -/
def latV (v : V3) : Prop := inLat v.x ∧ inLat v.y ∧ inLat v.z

/-- One cubelet mesh: immutable home (userData.home, main.js 514), the
current position, and the current orientation (the mesh quaternion, kept
as the matrix of the same rotation). -/
structure Cubelet where
  home : V3
  position : V3
  orientation : M3
deriving DecidableEq

/-- Position effect of one completed turn of the layer at coordinate g of
axis a by k counter-clockwise quarters, on a single cubelet position:
layer membership test of selectLayer (main.js 575-584), world rotation of
the transient group (main.js 609-631), then snapToGrid (main.js 633-637).
Unselected cubelets are untouched. -/
def posMapK (a : Axis) (g : ℤ) (k : ℕ) (p : V3) : V3 :=
  if roundedIndex (coordA a p) = g then roundV (mulVec (matPow (rotQ a) k) p) else p

/-- Orientation effect of the same turn: detaching from the rotated group
composes the group rotation onto the cubelet orientation; snapToGrid does
not alter it. Selection is by the position the cubelet had when the turn
started. -/
def oriMapK (a : Axis) (g : ℤ) (k : ℕ) (p : V3) (O : M3) : M3 :=
  if roundedIndex (coordA a p) = g then matMul (matPow (rotQ a) k) O else O

def posMap (m : Move) : V3 → V3 := posMapK m.axis m.sign (quarterExp m)

def oriMap (m : Move) : V3 → M3 → M3 := oriMapK m.axis m.sign (quarterExp m)

/-- Completed animateTurn (main.js 603-657) on one cubelet. -/
def doTurnC (m : Move) (c : Cubelet) : Cubelet :=
  ⟨c.home, posMap m c.position, oriMap m c.position c.orientation⟩

/-- Completed animateTurn on the whole registry: every cubelet in the
selected layer is rotated and snapped, the rest are untouched. -/
def doTurn (m : Move) (cs : List Cubelet) : List Cubelet := cs.map (doTurnC m)

/-- selectLayer (main.js 575-584): the cubelets whose roundedIndex along
the axis equals the requested sign. -/
def selectLayer (cs : List Cubelet) (a : Axis) (g : ℤ) : List Cubelet :=
  cs.filter fun c => decide (roundedIndex (coordA a c.position) = g)

def applyList (ms : List Move) (cs : List Cubelet) : List Cubelet :=
  ms.foldl (fun s mv => doTurn mv s) cs

/-- Every cubelet position of the state is an exact lattice point, the
rest-state invariant of the spec. -/
def allLat (cs : List Cubelet) : Prop := ∀ c ∈ cs, latV c.position

/-- The three lattice coordinates, in the loop order of buildSolvedCube
(main.js 465-467): -1, 0, 1. -/
def latCoords : List ℚ := [-1, 0, 1]

/-- The 27 grid cells xi, yi, zi of buildSolvedCube, outer loop x, then y,
then z. -/
def triples : List V3 :=
  latCoords.flatMap fun qx => latCoords.flatMap fun qy => latCoords.map fun qz => V3.mk qx qy qz

instance (q : ℚ) : Decidable (inLat q) := by
  unfold inLat
  infer_instance

instance (v : V3) : Decidable (latV v) := by
  unfold latV
  infer_instance

/-- buildSolvedCube (main.js 448-520): one cubelet per cell, position set
to the cell, home recorded as the same cell, orientation identity. -/
def solvedCubelets : List Cubelet := triples.map fun p => ⟨p, p, idM⟩

/-- The rotations by whole multiples of 90 degrees about coordinate axes:
every finite product of quarter rotations. -/
inductive CubeRot : M3 → Prop
  | idc : CubeRot idM
  | step (a : Axis) {O : M3} : CubeRot O → CubeRot (matMul (rotQ a) O)

/-- Every orientation of the state is a pure 90-degree-multiple rotation. -/
def allRot (cs : List Cubelet) : Prop := ∀ c ∈ cs, CubeRot c.orientation

def allHomeLat (cs : List Cubelet) : Prop := ∀ c ∈ cs, latV c.home

/-- Position test of computeCloseness (main.js 758): each component within
1e-3 of the home component. -/
def posOk (c : Cubelet) : Prop :=
  |c.position.x - c.home.x| < 1/1000 ∧ |c.position.y - c.home.y| < 1/1000 ∧
    |c.position.z - c.home.z| < 1/1000

instance (c : Cubelet) : Decidable (posOk c) := by
  unfold posOk
  infer_instance

/-- One rotated basis vector passes when some coordinate has absolute
value within 1e-3 of 1 (main.js 762-764). -/
def alignedV (w : V3) : Prop :=
  |(|w.x|) - 1| < 1/1000 ∨ |(|w.y|) - 1| < 1/1000 ∨ |(|w.z|) - 1| < 1/1000

instance (w : V3) : Decidable (alignedV w) := by
  unfold alignedV
  infer_instance

/-- Orientation test of computeCloseness (main.js 759-764): the three
rotated intrinsic basis vectors each pass the alignedV test. -/
def alignedM (O : M3) : Prop :=
  alignedV (mulVec O ⟨1, 0, 0⟩) ∧ alignedV (mulVec O ⟨0, 1, 0⟩) ∧
    alignedV (mulVec O ⟨0, 0, 1⟩)

instance (O : M3) : Decidable (alignedM O) := by
  unfold alignedM
  infer_instance

/-- The invisible core cubelet with home (0,0,0) (main.js 755). -/
def isCore (c : Cubelet) : Prop := c.home = ⟨0, 0, 0⟩

instance (c : Cubelet) : Decidable (isCore c) := by
  unfold isCore
  infer_instance

/-- main.js 765: a cubelet counts as correct when both tests pass. -/
def codeCorrect (c : Cubelet) : Prop := posOk c ∧ alignedM c.orientation

instance (c : Cubelet) : Decidable (codeCorrect c) := by
  unfold codeCorrect
  infer_instance

/-- computeCloseness (main.js 747-769): the clamped ratio of correct
non-core cubelets, 1 when no non-core cubelet exists. -/
def computeCloseness (cs : List Cubelet) : ℚ :=
  let nonCore := cs.filter fun c => decide (¬ isCore c)
  let total := nonCore.length
  let correct := (nonCore.filter fun c => decide (codeCorrect c)).length
  if total = 0 then 1 else max 0 (min 1 ((correct : ℚ) / (total : ℚ)))

/-- UI mode (main.js 535): idle, setup or play. -/
inductive Mode | idle | setup | play
deriving DecidableEq

/-- The process-wide interaction state of main.js 531-537: the cubelet
registry, moveHistory, mode, setupCount, setupSequence and the isTurning
flag of the turn engine. -/
structure Engine where
  cubelets : List Cubelet
  history : List Move
  mode : Mode
  setupCount : ℕ
  setupSequence : List Move
  isTurning : Bool
deriving DecidableEq

/-- animateTurn (main.js 603-657) observed at completion: rejected as a
no-op while a turn is in flight; otherwise the layer is rotated and
snapped, and when record is set the move is appended to moveHistory, with
the setup counter and setup sequence also updated while in setup mode.
The flag returns to false when the animation resolves. -/
def engTurn (m : Move) (record : Bool) (e : Engine) : Engine :=
  if e.isTurning then e
  else
    { e with
      cubelets := doTurn m e.cubelets,
      history := if record then e.history ++ [m] else e.history,
      setupCount :=
        if record && decide (e.mode = Mode.setup) then e.setupCount + 1 else e.setupCount,
      setupSequence :=
        if record && decide (e.mode = Mode.setup) then e.setupSequence ++ [m]
        else e.setupSequence }

/-- The scramble and user turns: each turn recorded, strictly serialized
(each awaited before the next). -/
def playMoves (ms : List Move) (e : Engine) : Engine :=
  ms.foldl (fun acc mv => engTurn mv true acc) e

/-- The replay loop of the solve handler: inverse of each listed move,
applied with record false, strictly serialized. -/
def replayInv (L : List Move) (e : Engine) : Engine :=
  L.foldl (fun acc mv => engTurn (invMove mv) false acc) e

/-- The btn-solve click handler (main.js 819-837): no-op while turning or
with empty history; otherwise set mode to play, replay the inverted
history from newest to oldest, then empty the history. -/
def assemble (e : Engine) : Engine :=
  if e.isTurning then e
  else if e.history = [] then e
  else
    { replayInv e.history.reverse { e with mode := Mode.play } with history := [] }

/-- Startup state: solved cube, empty history, idle mode, zero setup
counter, no turn in flight. -/
def initEngine : Engine := ⟨solvedCubelets, [], Mode.idle, 0, [], false⟩

/-- onPointerUp drag translation (main.js 694-717), given the face axis
and sign picked by onPointerDown and the drag components du, dv along the
face basis vectors u, v: a drag whose largest component is below the 0.18
threshold is a click and produces no Move; otherwise the dominant
component fixes the clockwise flag (du positive when u dominates, dv
negative when v dominates) and a single-quarter Move is issued. -/
def gestureMove (a : Axis) (g : ℤ) (du dv : ℚ) : Option Move :=
  if max |du| |dv| < 18/100 then none
  else some ⟨a, g, if |du| ≥ |dv| then decide (du > 0) else decide (dv < 0), 1⟩

/-- Sample move: turn of the x = 1 layer, clockwise, one quarter. -/
def m0 : Move := ⟨Axis.x, 1, true, 1⟩

/-- Engine state with a turn in flight. -/
def eTurning : Engine := ⟨solvedCubelets, [], Mode.idle, 0, [], true⟩

/-- Engine state at rest with one recorded move. -/
def eOneMove : Engine := ⟨solvedCubelets, [m0], Mode.idle, 0, [], false⟩

/-- Componentwise negation. -/
def negV (v : V3) : V3 := ⟨-v.x, -v.y, -v.z⟩

/-- An orientation with a small non-lattice deviation, as floating-point
drift would produce. -/
def oDrift : M3 := ⟨⟨1, 1/100, 0⟩, ⟨-1/100, 1, 0⟩, ⟨0, 0, 1⟩⟩

/-- The face-center cubelet of the x = 1 layer carrying the drifted
orientation. -/
def cDrift : Cubelet := ⟨⟨1, 0, 0⟩, ⟨1, 0, 0⟩, oDrift⟩

/-- A cubelet whose coordinate drifted far outside the grid. -/
def cBad : Cubelet := ⟨⟨1, 0, 0⟩, ⟨3, 0, 0⟩, idM⟩

/-- The face-center cubelet of the x = 1 layer in the solved state. -/
def cCenterR : Cubelet := ⟨⟨1, 0, 0⟩, ⟨1, 0, 0⟩, idM⟩

theorem mulVec_id (v : V3) : mulVec idM v = v := by
  cases v
  simp [idM, mulVec, dotV]

theorem matMul_id_left (A : M3) : matMul idM A = A := by
  obtain ⟨⟨a, b, c⟩, ⟨d, e, f⟩, ⟨g, h, i⟩⟩ := A
  simp [idM, matMul, rowMul, dotV, colX, colY, colZ]

theorem matMul_id_right (A : M3) : matMul A idM = A := by
  obtain ⟨⟨a, b, c⟩, ⟨d, e, f⟩, ⟨g, h, i⟩⟩ := A
  simp [idM, matMul, rowMul, dotV, colX, colY, colZ]

theorem matMul_assoc (A B C : M3) :
    matMul (matMul A B) C = matMul A (matMul B C) := by
  obtain ⟨⟨a1, a2, a3⟩, ⟨a4, a5, a6⟩, ⟨a7, a8, a9⟩⟩ := A
  obtain ⟨⟨b1, b2, b3⟩, ⟨b4, b5, b6⟩, ⟨b7, b8, b9⟩⟩ := B
  obtain ⟨⟨c1, c2, c3⟩, ⟨c4, c5, c6⟩, ⟨c7, c8, c9⟩⟩ := C
  simp only [matMul, rowMul, dotV, colX, colY, colZ, M3.mk.injEq, V3.mk.injEq]
  refine ⟨⟨by ring, by ring, by ring⟩, ⟨by ring, by ring, by ring⟩, by ring, by ring, by ring⟩

theorem mulVec_matMul (A B : M3) (v : V3) :
    mulVec (matMul A B) v = mulVec A (mulVec B v) := by
  obtain ⟨⟨a1, a2, a3⟩, ⟨a4, a5, a6⟩, ⟨a7, a8, a9⟩⟩ := A
  obtain ⟨⟨b1, b2, b3⟩, ⟨b4, b5, b6⟩, ⟨b7, b8, b9⟩⟩ := B
  obtain ⟨vx, vy, vz⟩ := v
  simp only [matMul, mulVec, rowMul, dotV, colX, colY, colZ, V3.mk.injEq]
  refine ⟨by ring, by ring, by ring⟩

theorem matPow_add (A : M3) (i j : ℕ) :
    matMul (matPow A i) (matPow A j) = matPow A (i + j) := by
  induction j with
  | zero => simp [matPow, matMul_id_right]
  | succ n ih =>
      have : i + (n + 1) = (i + n) + 1 := by omega
      rw [this]
      simp only [matPow]
      rw [← matMul_assoc, ih]

theorem coord_rotQ (a : Axis) (v : V3) :
    coordA a (mulVec (rotQ a) v) = coordA a v := by
  cases a <;> (cases v; simp [rotQ, mulVec, dotV, coordA])

theorem coord_matPow (a : Axis) (k : ℕ) (v : V3) :
    coordA a (mulVec (matPow (rotQ a) k) v) = coordA a v := by
  induction k generalizing v with
  | zero => rw [matPow, mulVec_id]
  | succ n ih =>
      rw [matPow, mulVec_matMul, ih, coord_rotQ]

theorem rotQ_pow4 (a : Axis) : matPow (rotQ a) 4 = idM := by
  cases a <;>
    simp [matPow, matMul, rowMul, dotV, colX, colY, colZ, rotQ, idM, V3.mk.injEq, M3.mk.injEq]

theorem quarterExp_lt4 (m : Move) : quarterExp m < 4 := by
  unfold quarterExp
  omega

theorem quarterExp_inv_add (m : Move) :
    quarterExp m + quarterExp (invMove m) = 0 ∨
    quarterExp m + quarterExp (invMove m) = 4 := by
  unfold quarterExp invMove
  cases m.cw <;> simp <;> omega

theorem rotOf_inv_cancel (m : Move) :
    matMul (rotOf (invMove m)) (rotOf m) = idM := by
  have hax : (invMove m).axis = m.axis := rfl
  unfold rotOf
  rw [hax, matPow_add]
  rcases quarterExp_inv_add m with h | h
  · have h1 : quarterExp (invMove m) + quarterExp m = 0 := by omega
    rw [h1]
    rfl
  · have h1 : quarterExp (invMove m) + quarterExp m = 4 := by omega
    rw [h1, rotQ_pow4]

theorem mulVec_rot_cancel (m : Move) (v : V3) :
    mulVec (rotOf (invMove m)) (mulVec (rotOf m) v) = v := by
  rw [← mulVec_matMul, rotOf_inv_cancel, mulVec_id]

theorem jsRound_int (n : ℤ) : jsRound (n : ℚ) = n := by
  unfold jsRound
  rw [add_comm, Int.floor_add_int]
  norm_num

theorem jsRound_near (q : ℚ) : |q - (jsRound q : ℚ)| ≤ 1/2 := by
  unfold jsRound
  have h1 : ((⌊q + 1/2⌋ : ℤ) : ℚ) ≤ q + 1/2 := Int.floor_le _
  have h2 : q + 1/2 < (⌊q + 1/2⌋ : ℚ) + 1 := Int.lt_floor_add_one _
  rw [abs_le]
  constructor <;> linarith

theorem roundedIndex_bounds (q : ℚ) :
    -1 ≤ roundedIndex q ∧ roundedIndex q ≤ 1 := by
  unfold roundedIndex
  split_ifs <;> omega

theorem jsRound_lat {q : ℚ} (h : inLat q) : (jsRound q : ℚ) = q := by
  rcases h with h | h | h <;> subst h <;> norm_num [jsRound]

theorem roundV_lat {v : V3} (h : latV v) : roundV v = v := by
  obtain ⟨hx, hy, hz⟩ := h
  cases v
  simp only [roundV, V3.mk.injEq]
  exact ⟨jsRound_lat hx, jsRound_lat hy, jsRound_lat hz⟩

theorem neg_inLat {q : ℚ} (h : inLat q) : inLat (-q) := by
  rcases h with h | h | h <;> subst h <;> norm_num [inLat]

theorem mulVec_rotQx (v : V3) :
    mulVec (rotQ Axis.x) v = ⟨v.x, -v.z, v.y⟩ := by
  cases v
  simp [rotQ, mulVec, dotV]

theorem mulVec_rotQy (v : V3) :
    mulVec (rotQ Axis.y) v = ⟨v.z, v.y, -v.x⟩ := by
  cases v
  simp [rotQ, mulVec, dotV]

theorem mulVec_rotQz (v : V3) :
    mulVec (rotQ Axis.z) v = ⟨-v.y, v.x, v.z⟩ := by
  cases v
  simp [rotQ, mulVec, dotV]

theorem latV_rotQ (a : Axis) {v : V3} (h : latV v) :
    latV (mulVec (rotQ a) v) := by
  obtain ⟨hx, hy, hz⟩ := h
  cases a
  · rw [mulVec_rotQx]; exact ⟨hx, neg_inLat hz, hy⟩
  · rw [mulVec_rotQy]; exact ⟨hz, hy, neg_inLat hx⟩
  · rw [mulVec_rotQz]; exact ⟨neg_inLat hy, hx, hz⟩

theorem latV_matPow (a : Axis) (k : ℕ) {v : V3} (h : latV v) :
    latV (mulVec (matPow (rotQ a) k) v) := by
  induction k generalizing v with
  | zero => rw [matPow, mulVec_id]; exact h
  | succ n ih =>
      rw [matPow, mulVec_matMul]
      exact ih (latV_rotQ a h)

theorem posMap_lat (m : Move) {p : V3} (h : latV p) : latV (posMap m p) := by
  unfold posMap posMapK
  split
  · have hR := latV_matPow m.axis (quarterExp m) h
    rw [roundV_lat hR]
    exact hR
  · exact h

theorem posMap_sel (m : Move) {p : V3}
    (hs : roundedIndex (coordA m.axis p) = m.sign) (h : latV p) :
    posMap m p = mulVec (rotOf m) p := by
  unfold posMap posMapK
  rw [if_pos hs, roundV_lat (latV_matPow m.axis (quarterExp m) h)]
  rfl

theorem posMap_cancel (m : Move) {p : V3} (h : latV p) :
    posMap (invMove m) (posMap m p) = p := by
  by_cases hs : roundedIndex (coordA m.axis p) = m.sign
  · rw [posMap_sel m hs h]
    have hR : latV (mulVec (rotOf m) p) := latV_matPow m.axis (quarterExp m) h
    have hs2 : roundedIndex (coordA (invMove m).axis (mulVec (rotOf m) p)) = (invMove m).sign := by
      show roundedIndex (coordA m.axis (mulVec (matPow (rotQ m.axis) (quarterExp m)) p)) = m.sign
      rw [coord_matPow]
      exact hs
    rw [posMap_sel (invMove m) hs2 hR]
    exact mulVec_rot_cancel m p
  · have h1 : posMap m p = p := by
      unfold posMap posMapK
      rw [if_neg hs]
    rw [h1]
    show posMapK m.axis m.sign (quarterExp (invMove m)) p = p
    unfold posMapK
    rw [if_neg hs]

theorem oriMap_cancel (m : Move) {p : V3} (h : latV p) (O : M3) :
    oriMap (invMove m) (posMap m p) (oriMap m p O) = O := by
  by_cases hs : roundedIndex (coordA m.axis p) = m.sign
  · rw [posMap_sel m hs h]
    have hs2 : roundedIndex (coordA m.axis (mulVec (rotOf m) p)) = m.sign := by
      show roundedIndex (coordA m.axis (mulVec (matPow (rotQ m.axis) (quarterExp m)) p)) = m.sign
      rw [coord_matPow]
      exact hs
    show oriMapK m.axis m.sign (quarterExp (invMove m)) (mulVec (rotOf m) p)
      (oriMapK m.axis m.sign (quarterExp m) p O) = O
    unfold oriMapK
    rw [if_pos hs, if_pos hs2]
    rw [← matMul_assoc]
    have : matMul (matPow (rotQ m.axis) (quarterExp (invMove m)))
        (matPow (rotQ m.axis) (quarterExp m)) = idM := rotOf_inv_cancel m
    rw [this, matMul_id_left]
  · have h1 : posMap m p = p := by
      unfold posMap posMapK
      rw [if_neg hs]
    rw [h1]
    show oriMapK m.axis m.sign (quarterExp (invMove m)) p
      (oriMapK m.axis m.sign (quarterExp m) p O) = O
    unfold oriMapK
    rw [if_neg hs, if_neg hs]

theorem doTurnC_cancel (m : Move) {c : Cubelet} (h : latV c.position) :
    doTurnC (invMove m) (doTurnC m c) = c := by
  obtain ⟨h0, p, O⟩ := c
  simp only [doTurnC, Cubelet.mk.injEq, true_and, eq_self_iff_true]
  exact ⟨posMap_cancel m h, oriMap_cancel m h O⟩

theorem map_id_on {α : Type} {f : α → α} :
    ∀ {l : List α}, (∀ a ∈ l, f a = a) → l.map f = l := by
  intro l
  induction l with
  | nil => intro _; rfl
  | cons a tl ih =>
      intro h
      simp only [List.map_cons]
      rw [h a (List.mem_cons_self a tl), ih]
      intro b hb
      exact h b (List.mem_cons_of_mem a hb)

theorem doTurn_cancel (m : Move) {cs : List Cubelet} (h : allLat cs) :
    doTurn (invMove m) (doTurn m cs) = cs := by
  unfold doTurn
  rw [List.map_map]
  apply map_id_on
  intro c hc
  exact doTurnC_cancel m (h c hc)

theorem doTurn_allLat (m : Move) {cs : List Cubelet} (h : allLat cs) :
    allLat (doTurn m cs) := by
  intro c hc
  rcases List.mem_map.1 hc with ⟨c0, hc0, rfl⟩
  exact posMap_lat m (h c0 hc0)

theorem applyList_allLat (ms : List Move) {cs : List Cubelet} (h : allLat cs) :
    allLat (applyList ms cs) := by
  induction ms generalizing cs with
  | nil => exact h
  | cons m tl ih => exact ih (doTurn_allLat m h)

theorem applyList_append (l1 l2 : List Move) (cs : List Cubelet) :
    applyList (l1 ++ l2) cs = applyList l2 (applyList l1 cs) := by
  unfold applyList
  rw [List.foldl_append]

theorem undo_list (ms : List Move) {cs : List Cubelet} (h : allLat cs) :
    applyList (ms.reverse.map invMove) (applyList ms cs) = cs := by
  induction ms generalizing cs with
  | nil => rfl
  | cons m tl ih =>
      have h1 : (m :: tl).reverse.map invMove
          = (tl.reverse.map invMove) ++ [invMove m] := by
        simp
      rw [h1]
      have h2 : applyList (m :: tl) cs = applyList tl (doTurn m cs) := rfl
      rw [h2, applyList_append]
      rw [ih (doTurn_allLat m h)]
      show doTurn (invMove m) (doTurn m cs) = cs
      exact doTurn_cancel m h

theorem triples_nodup : triples.Nodup := by decide

theorem mem_triples_latV : ∀ v ∈ triples, latV v := by decide

theorem latV_mem_triples {v : V3} (h : latV v) : v ∈ triples := by
  obtain ⟨hx, hy, hz⟩ := h
  obtain ⟨vx, vy, vz⟩ := v
  rcases hx with rfl | rfl | rfl <;> rcases hy with rfl | rfl | rfl <;>
    rcases hz with rfl | rfl | rfl <;> decide

theorem solved_positions : solvedCubelets.map Cubelet.position = triples := by
  unfold solvedCubelets
  rw [List.map_map]
  apply map_id_on
  intro p _
  rfl

theorem solved_allLat : allLat solvedCubelets := by
  intro c hc
  rcases List.mem_map.1 hc with ⟨p, hp, rfl⟩
  exact mem_triples_latV p hp

theorem posMap_maps_triples (m : Move) : ∀ v ∈ triples, posMap m v ∈ triples :=
  fun v hv => latV_mem_triples (posMap_lat m (mem_triples_latV v hv))

theorem posMap_inj_on (m : Move) :
    ∀ v1 ∈ triples, ∀ v2 ∈ triples, posMap m v1 = posMap m v2 → v1 = v2 := by
  intro v1 h1 v2 h2 h
  have hc := congrArg (posMap (invMove m)) h
  rwa [posMap_cancel m (mem_triples_latV v1 h1),
    posMap_cancel m (mem_triples_latV v2 h2)] at hc

/-- A completed turn permutes the 27 lattice cells. -/
theorem posMap_perm (m : Move) : (triples.map (posMap m)).Perm triples := by
  have hnd : (triples.map (posMap m)).Nodup :=
    List.Nodup.map_on (posMap_inj_on m) triples_nodup
  have hsub : (triples.map (posMap m)) ⊆ triples := by
    intro v hv
    rcases List.mem_map.1 hv with ⟨w, hw, rfl⟩
    exact posMap_maps_triples m w hw
  exact (List.subperm_of_subset hnd hsub).perm_of_length_le
    (by rw [List.length_map])

theorem cubeRot_matPow_mul (a : Axis) (k : ℕ) {O : M3} (h : CubeRot O) :
    CubeRot (matMul (matPow (rotQ a) k) O) := by
  induction k generalizing O with
  | zero => rw [matPow, matMul_id_left]; exact h
  | succ n ih =>
      rw [matPow, matMul_assoc]
      exact ih (CubeRot.step a h)

theorem oriMap_cubeRot (m : Move) (p : V3) {O : M3} (h : CubeRot O) :
    CubeRot (oriMap m p O) := by
  unfold oriMap oriMapK
  split
  · exact cubeRot_matPow_mul m.axis (quarterExp m) h
  · exact h

theorem doTurn_allRot (m : Move) {cs : List Cubelet} (h : allRot cs) :
    allRot (doTurn m cs) := by
  intro c hc
  rcases List.mem_map.1 hc with ⟨c0, hc0, rfl⟩
  exact oriMap_cubeRot m c0.position (h c0 hc0)

theorem applyList_allRot (ms : List Move) {cs : List Cubelet} (h : allRot cs) :
    allRot (applyList ms cs) := by
  induction ms generalizing cs with
  | nil => exact h
  | cons m tl ih => exact ih (doTurn_allRot m h)

theorem solved_allRot : allRot solvedCubelets := by
  intro c hc
  rcases List.mem_map.1 hc with ⟨p, hp, rfl⟩
  exact CubeRot.idc

theorem solved_allHomeLat : allHomeLat solvedCubelets := by
  intro c hc
  rcases List.mem_map.1 hc with ⟨p, hp, rfl⟩
  exact mem_triples_latV p hp

theorem doTurn_positions (m : Move) (cs : List Cubelet) :
    (doTurn m cs).map Cubelet.position = (cs.map Cubelet.position).map (posMap m) := by
  unfold doTurn
  rw [List.map_map, List.map_map]
  rfl

theorem doTurn_perm {cs : List Cubelet} (m : Move)
    (h : (cs.map Cubelet.position).Perm triples) :
    ((doTurn m cs).map Cubelet.position).Perm triples := by
  rw [doTurn_positions]
  exact ((h.map (posMap m)).trans (posMap_perm m))

theorem applyList_perm (ms : List Move) {cs : List Cubelet}
    (h : (cs.map Cubelet.position).Perm triples) :
    ((applyList ms cs).map Cubelet.position).Perm triples := by
  induction ms generalizing cs with
  | nil => exact h
  | cons m tl ih => exact ih (doTurn_perm m h)

theorem alignedV_rotQ (a : Axis) {w : V3} (h : alignedV w) :
    alignedV (mulVec (rotQ a) w) := by
  cases a
  · rw [mulVec_rotQx]
    unfold alignedV at h ⊢
    simp only [abs_neg] at h ⊢
    tauto
  · rw [mulVec_rotQy]
    unfold alignedV at h ⊢
    simp only [abs_neg] at h ⊢
    tauto
  · rw [mulVec_rotQz]
    unfold alignedV at h ⊢
    simp only [abs_neg] at h ⊢
    tauto

theorem alignedM_idM : alignedM idM := by
  unfold alignedM alignedV
  norm_num [mulVec_id]

theorem cubeRot_aligned {O : M3} (h : CubeRot O) : alignedM O := by
  induction h with
  | idc => exact alignedM_idM
  | step a h ih =>
      obtain ⟨h1, h2, h3⟩ := ih
      exact ⟨by rw [mulVec_matMul]; exact alignedV_rotQ a h1,
        by rw [mulVec_matMul]; exact alignedV_rotQ a h2,
        by rw [mulVec_matMul]; exact alignedV_rotQ a h3⟩

theorem inLat_eq_of_close {q r : ℚ} (hq : inLat q) (hr : inLat r)
    (h : |q - r| < 1/1000) : q = r := by
  rcases hq with rfl | rfl | rfl <;> rcases hr with rfl | rfl | rfl <;>
    first
    | rfl
    | (exfalso; norm_num at h)

theorem posOk_iff {c : Cubelet} (hp : latV c.position) (hh : latV c.home) :
    posOk c ↔ c.position = c.home := by
  obtain ⟨hpx, hpy, hpz⟩ := hp
  obtain ⟨hhx, hhy, hhz⟩ := hh
  constructor
  · intro h
    obtain ⟨h1, h2, h3⟩ := h
    obtain ⟨h0, p, O⟩ := c
    obtain ⟨px, py, pz⟩ := p
    obtain ⟨hx, hy, hz⟩ := h0
    simp only [V3.mk.injEq]
    exact ⟨inLat_eq_of_close hpx hhx h1, inLat_eq_of_close hpy hhy h2,
      inLat_eq_of_close hpz hhz h3⟩
  · intro h
    unfold posOk
    rw [h]
    norm_num

/-- On exact rest states the orientation test of computeCloseness is
always satisfied, so the score counts exactly the non-core cubelets
sitting at their home cell. -/
theorem closeness_exact {cs : List Cubelet} (hp : allLat cs)
    (hh : allHomeLat cs) (ho : allRot cs) :
    computeCloseness cs =
      (if (cs.filter fun c => decide (¬ isCore c)).length = 0 then (1 : ℚ)
       else (((cs.filter fun c => decide (¬ isCore c)).filter
           fun c => decide (c.position = c.home)).length : ℚ)
         / ((cs.filter fun c => decide (¬ isCore c)).length : ℚ)) := by
  show (let nonCore := cs.filter fun c => decide (¬ isCore c);
    let total := nonCore.length;
    let correct := (nonCore.filter fun c => decide (codeCorrect c)).length;
    if total = 0 then 1 else max 0 (min 1 ((correct : ℚ) / (total : ℚ)))) = _
  simp only []
  have hfilter : ((cs.filter fun c => decide (¬ isCore c)).filter
        fun c => decide (codeCorrect c))
      = ((cs.filter fun c => decide (¬ isCore c)).filter
        fun c => decide (c.position = c.home)) := by
    apply List.filter_congr
    intro c hc
    have hc2 : c ∈ cs := List.mem_of_mem_filter hc
    have hiff : codeCorrect c ↔ c.position = c.home := by
      unfold codeCorrect
      have ha : alignedM c.orientation := cubeRot_aligned (ho c hc2)
      have hpo := posOk_iff (hp c hc2) (hh c hc2)
      tauto
    exact decide_eq_decide.mpr hiff
  rw [hfilter]
  set t := (cs.filter fun c => decide (¬ isCore c)).length with ht
  by_cases h0 : t = 0
  · rw [if_pos h0, if_pos h0]
  · rw [if_neg h0, if_neg h0]
    set k := ((cs.filter fun c => decide (¬ isCore c)).filter
      fun c => decide (c.position = c.home)).length with hk
    have hle : k ≤ t := by
      rw [hk, ht]
      exact List.length_filter_le _ _
    have htpos : (0 : ℚ) < (t : ℚ) := by
      have : 0 < t := Nat.pos_of_ne_zero h0
      exact_mod_cast this
    have hnn : (0 : ℚ) ≤ (k : ℚ) / (t : ℚ) :=
      div_nonneg (by positivity) (le_of_lt htpos)
    have hle1 : (k : ℚ) / (t : ℚ) ≤ 1 := by
      rw [div_le_one htpos]
      exact_mod_cast hle
    rw [min_eq_right hle1, max_eq_right hnn]

theorem engTurn_isTurning (m : Move) (r : Bool) (e : Engine) :
    (engTurn m r e).isTurning = e.isTurning := by
  unfold engTurn
  split <;> rfl

theorem engTurn_mode (m : Move) (r : Bool) (e : Engine) :
    (engTurn m r e).mode = e.mode := by
  unfold engTurn
  split <;> rfl

theorem engTurn_false_cubelets (m : Move) (r : Bool) {e : Engine}
    (h : e.isTurning = false) :
    (engTurn m r e).cubelets = doTurn m e.cubelets := by
  unfold engTurn
  rw [h]
  rfl

theorem engTurn_false_record_history (m : Move) {e : Engine}
    (h : e.isTurning = false) :
    (engTurn m true e).history = e.history ++ [m] := by
  unfold engTurn
  rw [h]
  rfl

theorem engTurn_false_norec_history (m : Move) {e : Engine}
    (h : e.isTurning = false) :
    (engTurn m false e).history = e.history := by
  unfold engTurn
  rw [h]
  rfl

theorem playMoves_spec (ms : List Move) :
    ∀ e : Engine, e.isTurning = false →
      (playMoves ms e).cubelets = applyList ms e.cubelets ∧
      (playMoves ms e).history = e.history ++ ms ∧
      (playMoves ms e).isTurning = false := by
  induction ms with
  | nil =>
      intro e h
      exact ⟨rfl, by simp [playMoves], h⟩
  | cons m tl ih =>
      intro e h
      have hstep : playMoves (m :: tl) e = playMoves tl (engTurn m true e) := rfl
      have h2 : (engTurn m true e).isTurning = false := by
        rw [engTurn_isTurning]; exact h
      obtain ⟨hc, hh, ht⟩ := ih (engTurn m true e) h2
      refine ⟨?_, ?_, ?_⟩
      · rw [hstep, hc, engTurn_false_cubelets m true h]
        rfl
      · rw [hstep, hh, engTurn_false_record_history m h]
        simp
      · rw [hstep]; exact ht

theorem replayInv_spec (L : List Move) :
    ∀ e : Engine, e.isTurning = false →
      (replayInv L e).cubelets = applyList (L.map invMove) e.cubelets ∧
      (replayInv L e).history = e.history ∧
      (replayInv L e).mode = e.mode ∧
      (replayInv L e).isTurning = false := by
  induction L with
  | nil =>
      intro e h
      exact ⟨rfl, rfl, rfl, h⟩
  | cons m tl ih =>
      intro e h
      have hstep : replayInv (m :: tl) e = replayInv tl (engTurn (invMove m) false e) := rfl
      have h2 : (engTurn (invMove m) false e).isTurning = false := by
        rw [engTurn_isTurning]; exact h
      obtain ⟨hc, hh, hm, ht⟩ := ih (engTurn (invMove m) false e) h2
      refine ⟨?_, ?_, ?_, ?_⟩
      · rw [hstep, hc, engTurn_false_cubelets (invMove m) false h]
        rfl
      · rw [hstep, hh, engTurn_false_norec_history (invMove m) h]
      · rw [hstep, hm, engTurn_mode]
      · rw [hstep]; exact ht

theorem closeness_solved : computeCloseness solvedCubelets = 1 := by
  rw [closeness_exact solved_allLat solved_allHomeLat solved_allRot]
  have h26 : (solvedCubelets.filter fun c => decide (¬ isCore c)).length = 26 := by decide
  have h26b : ((solvedCubelets.filter fun c => decide (¬ isCore c)).filter
      fun c => decide (c.position = c.home)).length = 26 := by decide
  rw [h26b, h26]
  norm_num

theorem assemble_empty {e : Engine} (h : e.history = []) : assemble e = e := by
  unfold assemble
  by_cases hT : e.isTurning
  · rw [if_pos hT]
  · rw [if_neg hT, if_pos h]

theorem assemble_step {e : Engine} (ht : e.isTurning = false)
    (hh : e.history ≠ []) :
    assemble e =
      { replayInv e.history.reverse { e with mode := Mode.play } with history := [] } := by
  unfold assemble
  rw [ht]
  rw [if_neg (by simp), if_neg hh]

/-- Claim C1: starting from the solved cube, after any finite sequence of
turns applied with record true, Assemble (which replays the recorded
history newest to oldest, applying each inverse with record false, then
empties the history) terminates with closeness 1 and empty move history. -/
theorem assemble_restores_solved (ms : List Move) :
    computeCloseness (assemble (playMoves ms initEngine)).cubelets = 1 ∧
    (assemble (playMoves ms initEngine)).history = [] := by
  obtain ⟨hcub, hhist, hturn⟩ := playMoves_spec ms initEngine rfl
  by_cases hms : ms = []
  · subst hms
    have h1 : assemble (playMoves [] initEngine) = initEngine := assemble_empty rfl
    rw [h1]
    exact ⟨closeness_solved, rfl⟩
  · have hh : (playMoves ms initEngine).history = ms := by
      rw [hhist]
      rfl
    have hstep := assemble_step hturn (by rw [hh]; exact hms)
    rw [hstep]
    refine ⟨?_, rfl⟩
    have hT2 : ({ playMoves ms initEngine with mode := Mode.play } : Engine).isTurning = false :=
      hturn
    obtain ⟨hc2, _, _, _⟩ :=
      replayInv_spec (playMoves ms initEngine).history.reverse
        { playMoves ms initEngine with mode := Mode.play } hT2
    show computeCloseness
      (replayInv (playMoves ms initEngine).history.reverse
        { playMoves ms initEngine with mode := Mode.play }).cubelets = 1
    rw [hc2]
    have he : ({ playMoves ms initEngine with mode := Mode.play } : Engine).cubelets
        = applyList ms solvedCubelets := hcub
    rw [he, hh]
    rw [undo_list ms solved_allLat]
    exact closeness_solved

/-- Claim C2: for every Move and every rest state (all positions exact
lattice cells), applying the move through the turn engine and then its
inverse with the clockwise flag negated restores every cubelet to its
exact starting position and orientation. -/
theorem turn_then_inverse_restores_state (m : Move) (cs : List Cubelet)
    (h : allLat cs) : doTurn (invMove m) (doTurn m cs) = cs :=
  doTurn_cancel m h

theorem turn_then_inverse_restores_state_witness :
    allLat solvedCubelets ∧
    doTurn (invMove m0) (doTurn m0 solvedCubelets) = solvedCubelets :=
  ⟨solved_allLat, turn_then_inverse_restores_state m0 solvedCubelets solved_allLat⟩

/-- Claim C3: in every rest state reachable from the solved cube by any
finite sequence of turns, the multiset of the 27 cubelet positions is
exactly the lattice of 27 cells, and every orientation is a pure
90-degree-multiple rotation. -/
theorem reachable_states_lattice_and_rotations (ms : List Move) :
    (((applyList ms solvedCubelets).map Cubelet.position : List V3) : Multiset V3)
      = ((triples : List V3) : Multiset V3) ∧
    allRot (applyList ms solvedCubelets) := by
  constructor
  · exact Multiset.coe_eq_coe.mpr
      (applyList_perm ms (by rw [solved_positions]))
  · exact applyList_allRot ms solved_allRot

/-- Claim C7: a turn request issued while a turn is already in flight is
silently rejected: the whole engine state, cubelets, history, setup
counter and mode included, is unchanged. -/
theorem turn_ignored_while_turning (e : Engine) (m : Move) (r : Bool)
    (h : e.isTurning = true) : engTurn m r e = e := by
  unfold engTurn
  rw [h]
  rfl

theorem turn_ignored_while_turning_witness :
    eTurning.isTurning = true ∧ engTurn m0 true eTurning = eTurning :=
  ⟨rfl, turn_ignored_while_turning eTurning m0 true rfl⟩

/-- Claim C9: invoking Assemble with an empty move history is a no-op,
not an error: the engine state is returned unchanged. -/
theorem assemble_empty_history_noop (e : Engine) (h : e.history = []) :
    assemble e = e :=
  assemble_empty h

theorem assemble_empty_history_noop_witness :
    initEngine.history = [] ∧ assemble initEngine = initEngine :=
  ⟨rfl, assemble_empty_history_noop initEngine rfl⟩

/-- Claim C10: whenever Assemble runs with no turn in flight and a
non-empty history, it sets the mode to play before the replay and the
mode is still play when it completes, whatever the prior mode was. -/
theorem assemble_forces_play_mode (e : Engine) (ht : e.isTurning = false)
    (hh : e.history ≠ []) : (assemble e).mode = Mode.play := by
  rw [assemble_step ht hh]
  show (replayInv e.history.reverse { e with mode := Mode.play }).mode = Mode.play
  obtain ⟨_, _, hm, _⟩ :=
    replayInv_spec e.history.reverse { e with mode := Mode.play } ht
  rw [hm]

theorem assemble_forces_play_mode_witness :
    eOneMove.isTurning = false ∧ eOneMove.history ≠ [] ∧
    (assemble eOneMove).mode = Mode.play :=
  ⟨rfl, by simp [eOneMove], assemble_forces_play_mode eOneMove rfl (by simp [eOneMove])⟩

/-- Claim C8: a drag whose largest face-plane component stays below the
fixed 0.18 threshold produces no Move; otherwise a dominant u component
gives clockwise exactly when du is positive and a dominant v component
gives clockwise exactly when dv is negative. -/
theorem gesture_threshold_and_direction (a : Axis) (g : ℤ) (du dv : ℚ) :
    (max |du| |dv| < 18/100 → gestureMove a g du dv = none) ∧
    (18/100 ≤ max |du| |dv| → |dv| < |du| →
      gestureMove a g du dv = some ⟨a, g, decide (du > 0), 1⟩) ∧
    (18/100 ≤ max |du| |dv| → |du| < |dv| →
      gestureMove a g du dv = some ⟨a, g, decide (dv < 0), 1⟩) := by
  refine ⟨?_, ?_, ?_⟩
  · intro h
    unfold gestureMove
    rw [if_pos h]
  · intro h1 h2
    unfold gestureMove
    rw [if_neg (not_lt.mpr h1), if_pos (le_of_lt h2)]
  · intro h1 h2
    unfold gestureMove
    rw [if_neg (not_lt.mpr h1), if_neg (not_le.mpr h2)]

theorem gesture_threshold_and_direction_witness :
    gestureMove Axis.x 1 1 0 = some ⟨Axis.x, 1, true, 1⟩ := by
  have h := (gesture_threshold_and_direction Axis.x 1 1 0).2.1
    (by norm_num) (by norm_num)
  simpa using h

theorem rotOf_m0 : rotOf m0 = ⟨⟨1, 0, 0⟩, ⟨0, 0, 1⟩, ⟨0, -1, 0⟩⟩ := by
  have hq : quarterExp m0 = 3 := by decide
  unfold rotOf
  rw [show m0.axis = Axis.x from rfl, hq]
  simp [matPow, matMul, rowMul, dotV, colX, colY, colZ, rotQ, idM, V3.mk.injEq, M3.mk.injEq]

theorem sel_center : roundedIndex (coordA m0.axis cCenterR.position) = m0.sign := by
  norm_num [cCenterR, m0, coordA, roundedIndex, jsRound]

theorem doTurnC_m0_center :
    doTurnC m0 cCenterR = ⟨⟨1, 0, 0⟩, ⟨1, 0, 0⟩, ⟨⟨1, 0, 0⟩, ⟨0, 0, 1⟩, ⟨0, -1, 0⟩⟩⟩ := by
  have hpos : posMap m0 cCenterR.position = roundV (mulVec (rotOf m0) cCenterR.position) := by
    show posMapK m0.axis m0.sign (quarterExp m0) cCenterR.position = _
    unfold posMapK
    rw [if_pos sel_center]
    rfl
  have hori : oriMap m0 cCenterR.position cCenterR.orientation
      = matMul (rotOf m0) cCenterR.orientation := by
    show oriMapK m0.axis m0.sign (quarterExp m0) cCenterR.position cCenterR.orientation = _
    unfold oriMapK
    rw [if_pos sel_center]
    rfl
  show (⟨cCenterR.home, posMap m0 cCenterR.position,
    oriMap m0 cCenterR.position cCenterR.orientation⟩ : Cubelet) = _
  rw [hpos, hori, rotOf_m0]
  norm_num [cCenterR, roundV, mulVec, dotV, jsRound, matMul_id_right,
    Cubelet.mk.injEq, V3.mk.injEq, M3.mk.injEq]

/-- Claim C4 counterexample: after one clockwise quarter turn of the
x = 1 layer from solved, the face-center cubelet of that layer is still
counted correct by the closeness computation although its orientation is
not the identity, refuting that a non-core cubelet is counted correct
only when its orientation is specifically the identity. -/
theorem closeness_counts_rotated_center :
    doTurnC m0 cCenterR ∈ doTurn m0 solvedCubelets ∧
    codeCorrect (doTurnC m0 cCenterR) ∧
    (doTurnC m0 cCenterR).position = (doTurnC m0 cCenterR).home ∧
    (doTurnC m0 cCenterR).orientation ≠ idM := by
  have hmem : cCenterR ∈ solvedCubelets := by decide
  refine ⟨List.mem_map_of_mem _ hmem, ?_, ?_, ?_⟩
  · rw [doTurnC_m0_center]
    constructor
    · norm_num [posOk]
    · norm_num [alignedM, alignedV, mulVec, dotV]
  · rw [doTurnC_m0_center]
  · rw [doTurnC_m0_center]
    intro h
    have h2 := congrArg (fun M => M.r2.y) h
    norm_num [idM] at h2

/-- Claim C4 amended: on exact rest states, a non-core cubelet is counted
correct exactly when its position equals its home (the 1e-3 tolerance and
exact equality agree on the lattice, and the basis-alignment test accepts
every 90-degree-multiple rotation, not only the identity); the score is
that count over the non-core total, and 1 when the total is 0. -/
theorem closeness_on_exact_states (cs : List Cubelet) (hp : allLat cs)
    (hh : allHomeLat cs) (ho : allRot cs) :
    computeCloseness cs =
      (if (cs.filter fun c => decide (¬ isCore c)).length = 0 then (1 : ℚ)
       else (((cs.filter fun c => decide (¬ isCore c)).filter
           fun c => decide (c.position = c.home)).length : ℚ)
         / ((cs.filter fun c => decide (¬ isCore c)).length : ℚ)) :=
  closeness_exact hp hh ho

theorem closeness_on_exact_states_witness :
    allLat solvedCubelets ∧ allHomeLat solvedCubelets ∧ allRot solvedCubelets ∧
    computeCloseness solvedCubelets =
      (if (solvedCubelets.filter fun c => decide (¬ isCore c)).length = 0 then (1 : ℚ)
       else (((solvedCubelets.filter fun c => decide (¬ isCore c)).filter
           fun c => decide (c.position = c.home)).length : ℚ)
         / ((solvedCubelets.filter fun c => decide (¬ isCore c)).length : ℚ)) :=
  ⟨solved_allLat, solved_allHomeLat, solved_allRot,
    closeness_on_exact_states solvedCubelets solved_allLat solved_allHomeLat solved_allRot⟩

theorem latV_negV {v : V3} (h : latV v) : latV (negV v) := by
  obtain ⟨hx, hy, hz⟩ := h
  exact ⟨neg_inLat hx, neg_inLat hy, neg_inLat hz⟩

theorem matMul_rotQx_left (O : M3) :
    matMul (rotQ Axis.x) O = ⟨O.r1, negV O.r3, O.r2⟩ := by
  obtain ⟨⟨a, b, c⟩, ⟨d, e, f⟩, ⟨g, h, i⟩⟩ := O
  simp [rotQ, matMul, rowMul, dotV, colX, colY, colZ, negV]

theorem matMul_rotQy_left (O : M3) :
    matMul (rotQ Axis.y) O = ⟨O.r3, O.r2, negV O.r1⟩ := by
  obtain ⟨⟨a, b, c⟩, ⟨d, e, f⟩, ⟨g, h, i⟩⟩ := O
  simp [rotQ, matMul, rowMul, dotV, colX, colY, colZ, negV]

theorem matMul_rotQz_left (O : M3) :
    matMul (rotQ Axis.z) O = ⟨negV O.r2, O.r1, O.r3⟩ := by
  obtain ⟨⟨a, b, c⟩, ⟨d, e, f⟩, ⟨g, h, i⟩⟩ := O
  simp [rotQ, matMul, rowMul, dotV, colX, colY, colZ, negV]

/-- Every 90-degree-multiple rotation has all matrix entries in the
lattice -1, 0, 1; no genuinely drifted orientation can be one. -/
theorem cubeRot_rows {O : M3} (h : CubeRot O) :
    latV O.r1 ∧ latV O.r2 ∧ latV O.r3 := by
  induction h with
  | idc => exact ⟨by decide, by decide, by decide⟩
  | step a h ih =>
      obtain ⟨h1, h2, h3⟩ := ih
      cases a
      · rw [matMul_rotQx_left]
        exact ⟨h1, latV_negV h3, h2⟩
      · rw [matMul_rotQy_left]
        exact ⟨h3, h2, latV_negV h1⟩
      · rw [matMul_rotQz_left]
        exact ⟨latV_negV h2, h1, h3⟩

theorem sel_drift : roundedIndex (coordA m0.axis cDrift.position) = m0.sign := by
  norm_num [cDrift, m0, coordA, roundedIndex, jsRound]

theorem ori_drift : (doTurnC m0 cDrift).orientation
    = ⟨⟨1, 1/100, 0⟩, ⟨0, 0, 1⟩, ⟨1/100, -1, 0⟩⟩ := by
  have hori : (doTurnC m0 cDrift).orientation = matMul (rotOf m0) cDrift.orientation := by
    show oriMapK m0.axis m0.sign (quarterExp m0) cDrift.position cDrift.orientation = _
    unfold oriMapK
    rw [if_pos sel_drift]
    rfl
  rw [hori, rotOf_m0]
  norm_num [cDrift, oDrift, matMul, rowMul, dotV, colX, colY, colZ,
    V3.mk.injEq, M3.mk.injEq]

/-- Claim C5 counterexample: a turn applied to a cubelet carrying a small
non-lattice orientation drift leaves the orientation as the exact
unrounded composition of the turn rotation with the drifted orientation,
which is not a 90-degree-multiple rotation: snapToGrid performs no
orientation rounding. -/
theorem snap_does_not_round_orientation :
    (doTurnC m0 cDrift).orientation = matMul (rotOf m0) cDrift.orientation ∧
    ¬ CubeRot (doTurnC m0 cDrift).orientation := by
  constructor
  · show oriMapK m0.axis m0.sign (quarterExp m0) cDrift.position cDrift.orientation = _
    unfold oriMapK
    rw [if_pos sel_drift]
    rfl
  · rw [ori_drift]
    intro h
    obtain ⟨h1, _, _⟩ := cubeRot_rows h
    obtain ⟨_, hy, _⟩ := h1
    rcases hy with h2 | h2 | h2 <;> norm_num at h2

/-- Claim C5 amended: at the end of every turn, each moved cubelet
position component is rounded to the nearest integer (within one half of
the exact rotated value), while the orientation is the exact unrounded
composition of the turn rotation with the previous orientation. -/
theorem snap_rounds_position_only (m : Move) (c : Cubelet)
    (h : roundedIndex (coordA m.axis c.position) = m.sign) :
    (doTurnC m c).position = roundV (mulVec (rotOf m) c.position) ∧
    |(mulVec (rotOf m) c.position).x - (doTurnC m c).position.x| ≤ 1/2 ∧
    |(mulVec (rotOf m) c.position).y - (doTurnC m c).position.y| ≤ 1/2 ∧
    |(mulVec (rotOf m) c.position).z - (doTurnC m c).position.z| ≤ 1/2 ∧
    (doTurnC m c).orientation = matMul (rotOf m) c.orientation := by
  have hpos : (doTurnC m c).position = roundV (mulVec (rotOf m) c.position) := by
    show posMapK m.axis m.sign (quarterExp m) c.position = _
    unfold posMapK
    rw [if_pos h]
    rfl
  have hori : (doTurnC m c).orientation = matMul (rotOf m) c.orientation := by
    show oriMapK m.axis m.sign (quarterExp m) c.position c.orientation = _
    unfold oriMapK
    rw [if_pos h]
    rfl
  refine ⟨hpos, ?_, ?_, ?_, hori⟩ <;> rw [hpos] <;> exact jsRound_near _

theorem snap_rounds_position_only_witness :
    roundedIndex (coordA m0.axis cCenterR.position) = m0.sign ∧
    (doTurnC m0 cCenterR).orientation = matMul (rotOf m0) cCenterR.orientation :=
  ⟨sel_center, (snap_rounds_position_only m0 cCenterR sel_center).2.2.2.2⟩

/-- Claim C6 counterexample: a cubelet whose x coordinate rounds to 3,
outside the lattice, is clamped into the x = 1 layer by roundedIndex and
selected by selectLayer rather than excluded from every layer. -/
theorem selectLayer_includes_outlier :
    jsRound cBad.position.x = 3 ∧
    ¬ ((3 : ℤ) = -1 ∨ (3 : ℤ) = 0 ∨ (3 : ℤ) = 1) ∧
    cBad ∈ selectLayer [cBad] Axis.x 1 := by
  refine ⟨?_, by decide, ?_⟩
  · norm_num [cBad, jsRound]
  · have h : roundedIndex (coordA Axis.x cBad.position) = 1 := by
      norm_num [roundedIndex, jsRound, cBad, coordA]
    unfold selectLayer
    rw [List.mem_filter]
    exact ⟨by simp, by simp [h]⟩

/-- Claim C6 amended: selectLayer picks exactly the cubelets of the list
whose current coordinate along the axis, rounded to the nearest integer
and clamped into the range -1 to 1, equals the requested sign;
out-of-range coordinates are clamped to the nearest face layer, never
excluded. -/
theorem selectLayer_membership_clamped (cs : List Cubelet) (a : Axis)
    (g : ℤ) (c : Cubelet) :
    c ∈ selectLayer cs a g ↔
      c ∈ cs ∧ min 1 (max (-1) (jsRound (coordA a c.position))) = g := by
  have hri : roundedIndex (coordA a c.position)
      = min 1 (max (-1) (jsRound (coordA a c.position))) := by
    unfold roundedIndex
    split_ifs <;> omega
  unfold selectLayer
  rw [List.mem_filter, ← hri]
  simp

theorem selectLayer_membership_clamped_witness :
    cBad ∈ selectLayer [cBad] Axis.x 1 ↔
      cBad ∈ [cBad] ∧ min 1 (max (-1) (jsRound (coordA Axis.x cBad.position))) = 1 :=
  selectLayer_membership_clamped [cBad] Axis.x 1 cBad
